import Mathlib

/-!
# Verification of the faterunner option-layering and execution engine

Shallow embedding of `src/faterunner/__init__.py` (the `Opts`, `Action`,
`Task`, `Manager` classes) and of the exception classes declared in
`src/faterunner/exceptions.py`.  Python tri-state booleans (`bool | None`)
become `Option Bool`; the mutable per-call sets of `Manager._run` become an
explicit `RunState` threaded through a fuel-indexed recursion; raised Python
exceptions become explicit outcome values.
-/

namespace Faterunner

/-- Keep the first operand when it is set, else the second.  This is exactly
the per-field effect of the dict-merge `self.__dict__ | update` in
`Opts.__or__`, where `update` holds only the fields of `other` that are not
`None`: the value of `other` wins whenever it is set. -/
def firstSet (a b : Option Bool) : Option Bool :=
  match a with
  | some v => some v
  | none => b

/-- `Opts` from `faterunner/__init__.py`: four tri-state fields, `none`
meaning the Python `None` (unset). -/
structure Opts where
  silent : Option Bool
  ignore_err : Option Bool
  keep_going : Option Bool
  dry : Option Bool
deriving DecidableEq, Repr

/-- The all-unset record produced by the Python default constructor `Opts()`. -/
def Opts.unset : Opts :=
  { silent := none, ignore_err := none, keep_going := none, dry := none }

/-- `Opts.__or__(self, other)`: if `other is None` return a field-by-field
copy of `self`; otherwise every field takes the value of `other` when that
value is set and the value of `self` otherwise. -/
def Opts.mergeOr (self : Opts) (other : Option Opts) : Opts :=
  match other with
  | none =>
    { silent := self.silent
      ignore_err := self.ignore_err
      keep_going := self.keep_going
      dry := self.dry }
  | some o =>
    { silent := firstSet o.silent self.silent
      ignore_err := firstSet o.ignore_err self.ignore_err
      keep_going := firstSet o.keep_going self.keep_going
      dry := firstSet o.dry self.dry }

/-- The options effectively in force inside `Action.run`, built by the three
merge sites the execution path traverses: `Manager.run` computes
`self.opts | callOpts` and hands it down, `Task.run` computes
`self.opts | incoming`, and `Action.run` computes `self.opts | incoming`. -/
def effectiveOpts (actionOpts taskOpts managerOpts : Opts)
    (callOpts : Option Opts) : Opts :=
  actionOpts.mergeOr (some (taskOpts.mergeOr (some (managerOpts.mergeOr callOpts))))

/-- The field of the call-site override layer, `none` when no override
record was passed at all. -/
def callField (callOpts : Option Opts) (f : Opts → Option Bool) : Option Bool :=
  match callOpts with
  | none => none
  | some o => f o

/-- Modelled from the spec: the precedence chain the spec states, namely
call-site override, then task-level default, then manager-level default,
then action-level default, the first set layer winning. -/
def specClaimedOpts (actionOpts taskOpts managerOpts : Opts)
    (callOpts : Option Opts) : Opts :=
  { silent := firstSet (callField callOpts Opts.silent)
      (firstSet taskOpts.silent (firstSet managerOpts.silent actionOpts.silent))
    ignore_err := firstSet (callField callOpts Opts.ignore_err)
      (firstSet taskOpts.ignore_err
        (firstSet managerOpts.ignore_err actionOpts.ignore_err))
    keep_going := firstSet (callField callOpts Opts.keep_going)
      (firstSet taskOpts.keep_going
        (firstSet managerOpts.keep_going actionOpts.keep_going))
    dry := firstSet (callField callOpts Opts.dry)
      (firstSet taskOpts.dry (firstSet managerOpts.dry actionOpts.dry)) }

theorem firstSet_assoc (a b c : Option Bool) :
    firstSet (firstSet a b) c = firstSet a (firstSet b c) := by
  cases a <;> rfl

theorem firstSet_none (b : Option Bool) : firstSet none b = b := rfl

end Faterunner

namespace Faterunner

/-- Claim C2: merging `base | override` yields an `Opts` in which each field
equals the field of the override when that field is set and the field of the
base otherwise, and merging with no override yields an `Opts` equal to the
base. -/
theorem C2_merge_override (base override : Opts) :
    ((base.mergeOr (some override)).silent =
        if override.silent = none then base.silent else override.silent) ∧
    ((base.mergeOr (some override)).ignore_err =
        if override.ignore_err = none then base.ignore_err
        else override.ignore_err) ∧
    ((base.mergeOr (some override)).keep_going =
        if override.keep_going = none then base.keep_going
        else override.keep_going) ∧
    ((base.mergeOr (some override)).dry =
        if override.dry = none then base.dry else override.dry) ∧
    base.mergeOr none = base := by
  refine ⟨?_, ?_, ?_, ?_, rfl⟩ <;>
    · cases base <;> cases override <;>
        simp only [Opts.mergeOr, firstSet] <;>
        rename_i bs bi bk bd os oi ok od <;>
        first
        | (cases os <;> simp [firstSet])
        | (cases oi <;> simp [firstSet])
        | (cases ok <;> simp [firstSet])
        | (cases od <;> simp [firstSet])

/-- Claim C1, counterexample: with the silent field set to true at the
task-level default and to false at the manager-level default, unset at the
action level and at the call site, the effective value seen by the action is
the manager value false, while the precedence chain stated by the spec
(task-level default over manager-level default) yields true. -/
theorem C1_cex :
    (effectiveOpts Opts.unset
        { silent := some true, ignore_err := none, keep_going := none, dry := none }
        { silent := some false, ignore_err := none, keep_going := none, dry := none }
        none).silent = some false ∧
    (specClaimedOpts Opts.unset
        { silent := some true, ignore_err := none, keep_going := none, dry := none }
        { silent := some false, ignore_err := none, keep_going := none, dry := none }
        none).silent = some true := by
  constructor <;> rfl

/-- Claim C1, amended: the effective value of each field seen by the action
is the value of the highest-precedence layer in which the field is set, with
precedence call-site override, then manager-level default, then task-level
default, then action-level default (the task and manager layers are swapped
relative to the spec). -/
theorem C1_amended (actionOpts taskOpts managerOpts : Opts)
    (callOpts : Option Opts) :
    ((effectiveOpts actionOpts taskOpts managerOpts callOpts).silent =
      firstSet (callField callOpts Opts.silent)
        (firstSet managerOpts.silent
          (firstSet taskOpts.silent actionOpts.silent))) ∧
    ((effectiveOpts actionOpts taskOpts managerOpts callOpts).ignore_err =
      firstSet (callField callOpts Opts.ignore_err)
        (firstSet managerOpts.ignore_err
          (firstSet taskOpts.ignore_err actionOpts.ignore_err))) ∧
    ((effectiveOpts actionOpts taskOpts managerOpts callOpts).keep_going =
      firstSet (callField callOpts Opts.keep_going)
        (firstSet managerOpts.keep_going
          (firstSet taskOpts.keep_going actionOpts.keep_going))) ∧
    ((effectiveOpts actionOpts taskOpts managerOpts callOpts).dry =
      firstSet (callField callOpts Opts.dry)
        (firstSet managerOpts.dry (firstSet taskOpts.dry actionOpts.dry))) := by
  cases callOpts with
  | none =>
    refine ⟨?_, ?_, ?_, ?_⟩ <;>
      simp [effectiveOpts, Opts.mergeOr, callField, firstSet_none, firstSet_assoc]
  | some c =>
    refine ⟨?_, ?_, ?_, ?_⟩ <;>
      simp [effectiveOpts, Opts.mergeOr, callField, firstSet_assoc]

end Faterunner

namespace Faterunner

/-- Python exception values raised by the code under `src/`.  The first four
constructors embed the raise sites of `faterunner/__init__.py` (which raises
only `KeyError` and `RuntimeError`, plus whatever the underlying work of an
action raises); the last four embed the classes declared in
`faterunner/exceptions.py`, which no module of the engine imports or raises. -/
inductive PyErr where
  /-- `KeyError` raised by `Manager._run` for a name absent from `tasks`. -/
  | noSuchTask (name : String)
  /-- `RuntimeError` raised by `Manager._run` when listed dependencies of
  `name` are in the failed set; the payload holds the names the Python
  message interpolates. -/
  | depsFailed (name : String) (failedDeps : List String)
  /-- `RuntimeError` raised by `Manager._run` when listed dependencies of
  `name` are not in the already-run set. -/
  | depsNotRun (name : String) (notRunDeps : List String)
  /-- An arbitrary exception escaping the underlying work of an action:
  `subprocess.CalledProcessError` from `check_returncode`, or whatever a
  `FunctionAction` callback raises. -/
  | userError (msg : String)
  /-- `exceptions.ActionError`, wrapping a cause. -/
  | actionError (cause : PyErr)
  /-- `exceptions.DependencyError`. -/
  | dependencyError (msg : String)
  /-- `exceptions.FateError` used directly. -/
  | plainFateError (msg : String)
  /-- `exceptions.GuessError`. -/
  | guessError (msg : String)
deriving DecidableEq, Repr

/-- The Python class of an embedded exception value. -/
def PyErr.pyClassName : PyErr → String
  | .noSuchTask _ => "KeyError"
  | .depsFailed _ _ => "RuntimeError"
  | .depsNotRun _ _ => "RuntimeError"
  | .userError _ => "Exception"
  | .actionError _ => "ActionError"
  | .dependencyError _ => "DependencyError"
  | .plainFateError _ => "FateError"
  | .guessError _ => "GuessError"

/-- Whether the value is an instance of `exceptions.ActionError`. -/
def PyErr.isActionErrorClass : PyErr → Bool
  | .actionError _ => true
  | _ => false

/-- Whether the value is an instance of `exceptions.DependencyError`. -/
def PyErr.isDependencyErrorClass : PyErr → Bool
  | .dependencyError _ => true
  | _ => false

/-- Whether the value is an instance of `exceptions.FateError`
(`ActionError`, `DependencyError` and `GuessError` are its subclasses;
`RuntimeError` and `KeyError` are not). -/
def PyErr.isFateErrorClass : PyErr → Bool
  | .actionError _ => true
  | .dependencyError _ => true
  | .plainFateError _ => true
  | .guessError _ => true
  | _ => false

/-- Observable steps of one action execution: the `logger.info(get_name())`
announcement, and the invocation of the underlying work `_run`. -/
inductive Event where
  | announced (desc : String)
  | workRun (desc : String)
deriving DecidableEq, Repr

/-- An `Action`: its description (`get_name()`), its own default `Opts`, and
the outcome of its underlying work.  `work` embeds the abstract `_run`
method: `SubprocessAction._run` runs the command and fails on a non-zero
exit status, `FunctionAction._run` calls the stored function and fails when
it raises; `Action.run` passes the merged opts to `_run`, so `work` is a
function of those opts (both concrete subclasses ignore the argument). -/
structure Action where
  getName : String
  opts : Opts
  work : Opts → Except PyErr Unit

/-- `Action.run(self, opts)`: merge own defaults with the caller opts,
announce the description, return at once when `dry`, otherwise execute the
underlying work; a failure of the work is swallowed (logged) when
`ignore_err` is true and re-raised unchanged otherwise.  Returns the emitted
events and the outcome.  (The `silent` branch only redirects the output
streams of the work and does not alter the outcome.) -/
def Action.run (a : Action) (callerOpts : Option Opts) :
    List Event × Except PyErr Unit :=
  if (a.opts.mergeOr callerOpts).dry = some true then
    ([Event.announced a.getName], Except.ok ())
  else
    match a.work (a.opts.mergeOr callerOpts) with
    | Except.ok _ =>
      ([Event.announced a.getName, Event.workRun a.getName], Except.ok ())
    | Except.error err =>
      if (a.opts.mergeOr callerOpts).ignore_err = some true then
        ([Event.announced a.getName, Event.workRun a.getName], Except.ok ())
      else
        ([Event.announced a.getName, Event.workRun a.getName], Except.error err)

/-- A concrete action whose underlying work always fails, with all default
opts unset. -/
def boomAction : Action :=
  { getName := "boom"
    opts := Opts.unset
    work := fun _ => Except.error (PyErr.userError "boom") }

/-- A concrete action whose own default opts request a dry run. -/
def dryAction : Action :=
  { getName := "dry-demo"
    opts := { silent := none, ignore_err := none, keep_going := none, dry := some true }
    work := fun _ => Except.error (PyErr.userError "should-not-run") }

/-- Claim C3, counterexample: for a concrete action whose work fails and
whose merged opts leave `dry` and `ignore_err` unset, `Action.run`
propagates the underlying failure itself, not an `ActionError` wrapping it:
the engine module never raises the classes of `exceptions.py`. -/
theorem C3_cex :
    (boomAction.run none).2 = Except.error (PyErr.userError "boom") ∧
    PyErr.isActionErrorClass (PyErr.userError "boom") = false := by
  exact ⟨rfl, rfl⟩

/-- Claim C3, amended: when the merged opts have `dry` unset or false,
`Action.run` propagates a failure to the caller if and only if the
underlying work fails and the merged `ignore_err` is not true; when it
propagates, the propagated exception is the underlying failure unchanged
(it is not wrapped into an `ActionError`); when `ignore_err` is true the
failure is swallowed and `run` returns successfully. -/
theorem C3_amended (a : Action) (callerOpts : Option Opts)
    (hdry : (a.opts.mergeOr callerOpts).dry ≠ some true) :
    (∀ e : PyErr, (a.run callerOpts).2 = Except.error e ↔
        (a.work (a.opts.mergeOr callerOpts) = Except.error e ∧
          (a.opts.mergeOr callerOpts).ignore_err ≠ some true)) ∧
    ((a.opts.mergeOr callerOpts).ignore_err = some true →
      (a.run callerOpts).2 = Except.ok ()) := by
  constructor
  · intro e
    unfold Action.run
    rw [if_neg hdry]
    cases hw : a.work (a.opts.mergeOr callerOpts) with
    | ok u =>
      cases u
      simp [hw]
    | error e0 =>
      by_cases hig : (a.opts.mergeOr callerOpts).ignore_err = some true
      · simp [hig]
      · simp [hig, hw]
  · intro hig
    unfold Action.run
    rw [if_neg hdry]
    cases hw : a.work (a.opts.mergeOr callerOpts) with
    | ok u => rfl
    | error e0 => simp [hig]

/-- Witness for the amended claim C3 at a concrete failing action: the
propagated failure is the underlying exception itself. -/
theorem C3_amended_witness :
    (boomAction.run none).2 = Except.error (PyErr.userError "boom") ↔
      (boomAction.work (boomAction.opts.mergeOr none) =
          Except.error (PyErr.userError "boom") ∧
        (boomAction.opts.mergeOr none).ignore_err ≠ some true) :=
  (C3_amended boomAction none (by decide)).1 (PyErr.userError "boom")

/-- Claim C9: when the merged opts have `dry` true, `Action.run` reports the
human-readable description of the action and returns successfully without
invoking the underlying work, and the reported description heads the event
list of any run of the same action, dry or not. -/
theorem C9_dry (a : Action) (callerOpts otherOpts : Option Opts)
    (hdry : (a.opts.mergeOr callerOpts).dry = some true) :
    a.run callerOpts = ([Event.announced a.getName], Except.ok ()) ∧
    (a.run otherOpts).1.head? = some (Event.announced a.getName) := by
  constructor
  · unfold Action.run
    rw [if_pos hdry]
  · unfold Action.run
    by_cases h : (a.opts.mergeOr otherOpts).dry = some true
    · simp [h]
    · rw [if_neg h]
      cases a.work (a.opts.mergeOr otherOpts) with
      | ok u => rfl
      | error e0 =>
        by_cases hig : (a.opts.mergeOr otherOpts).ignore_err = some true
        · simp [hig]
        · simp [hig]

/-- Witness for claim C9 at a concrete action whose default opts request a
dry run. -/
theorem C9_dry_witness :
    dryAction.run none = ([Event.announced "dry-demo"], Except.ok ()) ∧
    (dryAction.run none).1.head? = some (Event.announced "dry-demo") :=
  C9_dry dryAction none none (by decide)

end Faterunner

namespace Faterunner

/-- A `Task`: its ordered sequence of actions and its own default `Opts`. -/
structure Task where
  actions : List Action
  opts : Opts

/-- The loop body of `Task.run`: run each action in order with the merged
opts; an exception propagating out of an action aborts the remaining
actions and propagates unchanged.  Returns the concatenated events and the
outcome. -/
def Task.runActions (opts : Opts) : List Action → List Event × Except PyErr Unit
  | [] => ([], Except.ok ())
  | a :: rest =>
    match (a.run (some opts)).2 with
    | Except.ok _ =>
      ((a.run (some opts)).1 ++ (Task.runActions opts rest).1,
        (Task.runActions opts rest).2)
    | Except.error e => ((a.run (some opts)).1, Except.error e)

/-- `Task.run(self, opts)`: merge own defaults with the caller opts, then
run the actions in declaration order, each with the same merged opts. -/
def Task.run (t : Task) (callerOpts : Option Opts) :
    List Event × Except PyErr Unit :=
  Task.runActions (t.opts.mergeOr callerOpts) t.actions

theorem runActions_sequence (o : Opts) :
    ∀ acts : List Action,
      ((Task.runActions o acts).2 = Except.ok () →
        (Task.runActions o acts).1 =
          (acts.map fun a => (a.run (some o)).1).flatten) ∧
      (∀ e, (Task.runActions o acts).2 = Except.error e →
        ∃ k, ∃ hk : k < acts.length,
          ((acts.get ⟨k, hk⟩).run (some o)).2 = Except.error e ∧
          (∀ j, ∀ hj : j < acts.length, j < k →
            ((acts.get ⟨j, hj⟩).run (some o)).2 = Except.ok ()) ∧
          (Task.runActions o acts).1 =
            ((acts.take k).map fun a => (a.run (some o)).1).flatten ++
              ((acts.get ⟨k, hk⟩).run (some o)).1) := by
  intro acts
  induction acts with
  | nil =>
    constructor
    · intro _
      rfl
    · intro e he
      simp [Task.runActions] at he
  | cons a rest ih =>
    cases hr : (a.run (some o)).2 with
    | ok u =>
      cases u
      constructor
      · intro hok
        have h2 : (Task.runActions o (a :: rest)).2 = (Task.runActions o rest).2 := by
          simp [Task.runActions, hr]
        have h1 : (Task.runActions o (a :: rest)).1 =
            (a.run (some o)).1 ++ (Task.runActions o rest).1 := by
          simp [Task.runActions, hr]
        rw [h1, ih.1 (h2 ▸ hok)]
        simp
      · intro e he
        have h2 : (Task.runActions o (a :: rest)).2 = (Task.runActions o rest).2 := by
          simp [Task.runActions, hr]
        have h1 : (Task.runActions o (a :: rest)).1 =
            (a.run (some o)).1 ++ (Task.runActions o rest).1 := by
          simp [Task.runActions, hr]
        obtain ⟨k, hk, hke, hprev, htr⟩ := ih.2 e (h2 ▸ he)
        refine ⟨k + 1, by simpa using Nat.succ_lt_succ hk, ?_, ?_, ?_⟩
        · simpa using hke
        · intro j hj hjk
          cases j with
          | zero => simpa using hr
          | succ j0 =>
            have hj0 : j0 < rest.length := by simpa using Nat.lt_of_succ_lt_succ hj
            have := hprev j0 hj0 (Nat.lt_of_succ_lt_succ hjk)
            simpa using this
        · rw [h1, htr]
          simp [List.take_succ_cons]
    | error e0 =>
      constructor
      · intro hok
        have h2 : (Task.runActions o (a :: rest)).2 = Except.error e0 := by
          simp [Task.runActions, hr]
        rw [h2] at hok
        exact absurd hok (by simp)
      · intro e he
        have h2 : (Task.runActions o (a :: rest)).2 = Except.error e0 := by
          simp [Task.runActions, hr]
        have h1 : (Task.runActions o (a :: rest)).1 = (a.run (some o)).1 := by
          simp [Task.runActions, hr]
        rw [h2] at he
        have hee : e0 = e := by
          simpa using he
        refine ⟨0, by simp, ?_, ?_, ?_⟩
        · simpa [hee] using hr
        · intro j hj hjk
          exact absurd hjk (Nat.not_lt_zero j)
        · simpa using h1

/-- Claim C8: `Task.run` executes the actions strictly in declaration
order, passing the same merged opts to each; when every action succeeds the
emitted events are the concatenation, in order, of the events of each
action; the first action whose run propagates a failure aborts all the
remaining actions (only the events of the actions up to and including it
are emitted) and its failure propagates to the caller unchanged. -/
theorem C8_task_sequence (t : Task) (callerOpts : Option Opts) :
    ((t.run callerOpts).2 = Except.ok () →
      (t.run callerOpts).1 =
        (t.actions.map fun a =>
          (a.run (some (t.opts.mergeOr callerOpts))).1).flatten) ∧
    (∀ e, (t.run callerOpts).2 = Except.error e →
      ∃ k, ∃ hk : k < t.actions.length,
        ((t.actions.get ⟨k, hk⟩).run (some (t.opts.mergeOr callerOpts))).2 =
          Except.error e ∧
        (∀ j, ∀ hj : j < t.actions.length, j < k →
          ((t.actions.get ⟨j, hj⟩).run (some (t.opts.mergeOr callerOpts))).2 =
            Except.ok ()) ∧
        (t.run callerOpts).1 =
          ((t.actions.take k).map fun a =>
            (a.run (some (t.opts.mergeOr callerOpts))).1).flatten ++
            ((t.actions.get ⟨k, hk⟩).run (some (t.opts.mergeOr callerOpts))).1) :=
  runActions_sequence (t.opts.mergeOr callerOpts) t.actions

end Faterunner

namespace Faterunner

/-- Lookup in a Python dict modelled as an association list with unique
keys, first binding wins. -/
def dictGet {α : Type} : List (String × α) → String → Option α
  | [], _ => none
  | (k0, v) :: rest, k => if k0 = k then some v else dictGet rest k

/-- Python dict assignment `d[k] = v`: replace the binding of `k` when one
exists, append a new binding otherwise. -/
def dictInsert {α : Type} : List (String × α) → String → α → List (String × α)
  | [], k, v => [(k, v)]
  | (k0, v0) :: rest, k, v =>
    if k0 = k then (k, v) :: rest else (k0, v0) :: dictInsert rest k v

theorem dictGet_dictInsert_self {α : Type} (l : List (String × α))
    (k : String) (v : α) : dictGet (dictInsert l k v) k = some v := by
  induction l with
  | nil => simp [dictInsert, dictGet]
  | cons p rest ih =>
    by_cases h : p.1 = k
    · simp [dictInsert, dictGet, h]
    · simp only [dictInsert, dictGet, h, if_false]
      simpa [dictGet, h] using ih

theorem dictGet_mem_map_snd {α : Type} (l : List (String × α)) (k : String)
    (v : α) (h : dictGet l k = some v) : v ∈ l.map Prod.snd := by
  induction l with
  | nil => simp [dictGet] at h
  | cons p rest ih =>
    by_cases hk : p.1 = k
    · simp [dictGet, hk] at h
      simp [← h]
    · simp only [dictGet, hk, if_false] at h
      simp [ih h]

/-- The mutable per-call state of `Manager._run`: the three sets passed by
reference through the recursion, plus the observation trace recording, in
order, the names on which `self.tasks[name].run(opts)` was invoked.  The
Python sets are modelled as duplicate-free lists (`exceptions` as a plain
list: each caught exception object is a fresh instance added exactly
once). -/
structure RunState where
  alreadyRun : List String
  failed : List String
  exceptions : List PyErr
  trace : List String
deriving DecidableEq, Repr

/-- `set.add` for the name sets. -/
def setAdd (s : List String) (x : String) : List String :=
  if x ∈ s then s else x :: s

/-- The state at the start of a top-level `Manager.run` call: all three
sets empty. -/
def RunState.init : RunState :=
  { alreadyRun := [], failed := [], exceptions := [], trace := [] }

/-- A `Manager`: the task registry, the dependency map, and its own default
`Opts`.  Both dicts are keyed by task name. -/
structure Manager where
  tasks : List (String × Task)
  deps : List (String × List String)
  opts : Opts

/-- `Manager.add(self, name, task, deps)`: a `None` dependency list becomes
the empty list; then both dict entries for `name` are overwritten. -/
def Manager.add (m : Manager) (name : String) (task : Task)
    (deps : Option (List String)) : Manager :=
  { tasks := dictInsert m.tasks name task
    deps := dictInsert m.deps name (deps.getD [])
    opts := m.opts }

/-- How one pass of `Manager._run` for a single name ends: normal return,
a raised Python exception propagating, or the fuel of the embedding ran
out (an artifact of the shallow embedding; the Python recursion needs no
fuel, and `runFuel_completes` below shows any fuel above `fuelNeed` is
enough). -/
inductive RunOutcome where
  | ok
  | raised (e : PyErr)
  | fuelOut
deriving DecidableEq, Repr

/-- The `try` block of `Manager._run`: raise `KeyError` when `name` is not
registered, raise `RuntimeError` when listed dependencies are in the failed
set, raise `RuntimeError` when listed dependencies are not in the
already-run set, otherwise invoke `self.tasks[name].run(opts)` (recorded on
the trace) and propagate its outcome. -/
def Manager.tryBody (m : Manager) (opts : Opts) (name : String)
    (deps : List String) (s : RunState) : RunState × Except PyErr Unit :=
  match dictGet m.tasks name with
  | none => (s, Except.error (PyErr.noSuchTask name))
  | some task =>
    if deps.filter (fun d => decide (d ∈ s.failed)) ≠ [] then
      (s, Except.error
        (PyErr.depsFailed name (deps.filter (fun d => decide (d ∈ s.failed)))))
    else if deps.filter (fun d => decide (d ∉ s.alreadyRun)) ≠ [] then
      (s, Except.error
        (PyErr.depsNotRun name (deps.filter (fun d => decide (d ∉ s.alreadyRun)))))
    else
      ({ s with trace := s.trace ++ [name] }, (task.run (some opts)).2)

/-- The dependency loop of `Manager._run`: run each dependency in listed
order; the loop is outside the `try` block, so an exception propagating
from a dependency aborts the loop and propagates unchanged. -/
def Manager.runDepsWith (f : String → RunState → RunState × RunOutcome) :
    List String → RunState → RunState × RunOutcome
  | [], s => (s, RunOutcome.ok)
  | d :: rest, s =>
    match f d s with
    | (s1, RunOutcome.ok) => Manager.runDepsWith f rest s1
    | (s1, RunOutcome.raised e) => (s1, RunOutcome.raised e)
    | (s1, RunOutcome.fuelOut) => (s1, RunOutcome.fuelOut)

/-- The `except` clause of `Manager._run`: `failed.add(name)` and
`exceptions.add(err)`. -/
def RunState.markFailed (s : RunState) (name : String) (e : PyErr) : RunState :=
  { alreadyRun := s.alreadyRun
    failed := setAdd s.failed name
    exceptions := s.exceptions ++ [e]
    trace := s.trace }

/-- `already_run.add(name)` performed before the recursion into the
dependencies. -/
def RunState.markRun (s : RunState) (name : String) : RunState :=
  { alreadyRun := setAdd s.alreadyRun name
    failed := s.failed
    exceptions := s.exceptions
    trace := s.trace }

/-- `Manager._run(self, name, opts, already_run, failed, exceptions)`,
fuel-indexed: return at once when `name` is already run; otherwise mark it
run before recursing into its listed dependencies; then run the `try`
block; on a raised exception mark `name` failed, collect the exception,
and re-raise it unless `opts.keep_going` is true. -/
def Manager.runFuel (m : Manager) (opts : Opts) :
    Nat → String → RunState → RunState × RunOutcome
  | 0, _, s => (s, RunOutcome.fuelOut)
  | fuel + 1, name, s =>
    if name ∈ s.alreadyRun then (s, RunOutcome.ok)
    else
      match Manager.runDepsWith (fun d s2 => Manager.runFuel m opts fuel d s2)
          ((dictGet m.deps name).getD []) (s.markRun name) with
      | (s2, RunOutcome.ok) =>
        match Manager.tryBody m opts name ((dictGet m.deps name).getD []) s2 with
        | (s3, Except.ok _) => (s3, RunOutcome.ok)
        | (s3, Except.error e) =>
          if opts.keep_going = some true then
            (s3.markFailed name e, RunOutcome.ok)
          else
            (s3.markFailed name e, RunOutcome.raised e)
      | (s2, RunOutcome.raised e) => (s2, RunOutcome.raised e)
      | (s2, RunOutcome.fuelOut) => (s2, RunOutcome.fuelOut)

/-- What a top-level `Manager.run` call raises: a single re-raised
exception (fail-fast), or the aggregate `RuntimeError(*exceptions)`, or the
fuel artifact of the embedding. -/
inductive RunFailure where
  | raised (e : PyErr)
  | aggregate (errs : List PyErr)
  | outOfFuel
deriving DecidableEq, Repr

/-- The Python class of the exception a failed `Manager.run` raises: the
aggregate raise site is `raise RuntimeError(*exceptions)`. -/
def RunFailure.pyClassOf : RunFailure → String
  | .raised e => e.pyClassName
  | .aggregate _ => "RuntimeError"
  | .outOfFuel => "<embedding artifact>"

/-- Whether the raised value is an instance of `exceptions.FateError`. -/
def RunFailure.isFateErrorClass : RunFailure → Bool
  | .raised e => e.isFateErrorClass
  | .aggregate _ => false
  | .outOfFuel => false

/-- `Manager.run(self, name, opts)`: merge own defaults with the caller
opts, walk the dependency closure, re-raise a propagating exception, and
otherwise raise `RuntimeError(*exceptions)` exactly when the collected
exception set is non-empty. -/
def Manager.run (m : Manager) (fuel : Nat) (name : String)
    (callerOpts : Option Opts) : Except RunFailure Unit :=
  match Manager.runFuel m (m.opts.mergeOr callerOpts) fuel name RunState.init with
  | (_, RunOutcome.raised e) => Except.error (RunFailure.raised e)
  | (_, RunOutcome.fuelOut) => Except.error RunFailure.outOfFuel
  | (s, RunOutcome.ok) =>
    if s.exceptions = [] then Except.ok ()
    else Except.error (RunFailure.aggregate s.exceptions)

/-- Claim C10: `Manager.add` with the dependency argument omitted (`None`)
stores the empty list as the dependency entry of `name`, overwriting any
previously registered dependency list, and stores the task under `name`. -/
theorem C10_add_overwrites (m : Manager) (name : String) (task : Task) :
    dictGet (m.add name task none).deps name = some [] ∧
    dictGet (m.add name task none).tasks name = some task :=
  ⟨dictGet_dictInsert_self m.deps name [], dictGet_dictInsert_self m.tasks name task⟩

end Faterunner

namespace Faterunner

theorem mem_setAdd_self (s : List String) (x : String) : x ∈ setAdd s x := by
  unfold setAdd
  by_cases h : x ∈ s <;> simp [h]

theorem mem_setAdd_of_mem {s : List String} {y : String} (x : String)
    (h : y ∈ s) : y ∈ setAdd s x := by
  unfold setAdd
  by_cases hx : x ∈ s <;> simp [hx, h]

theorem mem_setAdd_iff (s : List String) (x y : String) :
    y ∈ setAdd s x ↔ y = x ∨ y ∈ s := by
  unfold setAdd
  by_cases hx : x ∈ s
  · simp only [hx, if_true]
    constructor
    · intro h
      exact Or.inr h
    · intro h
      cases h with
      | inl h => exact h ▸ hx
      | inr h => exact h
  · simp [hx]

/-- Relation between the state before and after a portion of the walk of
`Manager._run`: the already-run set only grows; a name already in it is
never executed again; the execution count of any name grows by at most one;
and any newly executed name ends up in the already-run set. -/
def StepOK (s t : RunState) : Prop :=
  (∀ x, x ∈ s.alreadyRun → x ∈ t.alreadyRun) ∧
  (∀ x, x ∈ s.alreadyRun → t.trace.count x = s.trace.count x) ∧
  (∀ x, s.trace.count x ≤ t.trace.count x) ∧
  (∀ x, t.trace.count x ≤ s.trace.count x + 1) ∧
  (∀ x, s.trace.count x < t.trace.count x → x ∈ t.alreadyRun)

theorem stepOK_refl (s : RunState) : StepOK s s :=
  ⟨fun _ h => h, fun _ _ => rfl, fun _ => Nat.le_refl _, fun _ => Nat.le_succ _,
    fun _ h => absurd h (lt_irrefl _)⟩

theorem stepOK_trans {s t u : RunState} (h1 : StepOK s t) (h2 : StepOK t u) :
    StepOK s u := by
  obtain ⟨m1, f1, g1, b1, c1⟩ := h1
  obtain ⟨m2, f2, g2, b2, c2⟩ := h2
  refine ⟨fun x hx => m2 x (m1 x hx), ?_, fun x => le_trans (g1 x) (g2 x), ?_, ?_⟩
  · intro x hx
    rw [f2 x (m1 x hx), f1 x hx]
  · intro x
    rcases lt_or_eq_of_le (g1 x) with h | h
    · have hxt := c1 x h
      rw [f2 x hxt]
      exact b1 x
    · have hb := b2 x
      omega
  · intro x hx
    rcases lt_or_eq_of_le (g1 x) with h | h
    · exact m2 x (c1 x h)
    · exact c2 x (by omega)

theorem stepOK_markRun (s : RunState) (name : String) :
    StepOK s (s.markRun name) :=
  ⟨fun x hx => mem_setAdd_of_mem name hx, fun _ _ => rfl, fun _ => Nat.le_refl _,
    fun _ => Nat.le_succ _, fun _ h => absurd h (lt_irrefl _)⟩

theorem stepOK_markFailed {s t : RunState} (name : String) (e : PyErr)
    (h : StepOK s t) : StepOK s (t.markFailed name e) :=
  h

/-- Composite step for a freshly executed name: the state movement from
before marking `name` as run until after the dependency walk, followed by
appending `name` to the trace. -/
theorem stepOK_execTrace {s s2 : RunState} {name : String}
    (hnot : name ∉ s.alreadyRun)
    (h12 : StepOK (s.markRun name) s2) :
    StepOK s { s2 with trace := s2.trace ++ [name] } := by
  obtain ⟨m12, f12, g12, b12, c12⟩ := h12
  have hnm : name ∈ (s.markRun name).alreadyRun := mem_setAdd_self s.alreadyRun name
  refine ⟨?_, ?_, ?_, ?_, ?_⟩
  · intro x hx
    exact m12 x (mem_setAdd_of_mem name hx)
  · intro x hx
    have hxne : x ≠ name := fun h => hnot (h ▸ hx)
    have : (s2.trace ++ [name]).count x = s2.trace.count x := by
      simp [List.count_append, List.count_singleton, hxne]
    rw [show ({ s2 with trace := s2.trace ++ [name] } : RunState).trace =
        s2.trace ++ [name] from rfl, this, f12 x (mem_setAdd_of_mem name hx)]
    rfl
  · intro x
    have := g12 x
    simp only [RunState.markRun] at this
    calc s.trace.count x ≤ s2.trace.count x := this
      _ ≤ (s2.trace ++ [name]).count x := by simp [List.count_append]
  · intro x
    by_cases hx : x = name
    · subst hx
      have hfr := f12 x hnm
      simp only [RunState.markRun] at hfr
      simp [List.count_append, hfr]
    · have hb := b12 x
      simp only [RunState.markRun] at hb
      have : (s2.trace ++ [name]).count x = s2.trace.count x := by
        simp [List.count_append, List.count_singleton, hx]
      rw [show ({ s2 with trace := s2.trace ++ [name] } : RunState).trace =
        s2.trace ++ [name] from rfl, this]
      exact hb
  · intro x hx
    by_cases hxn : x = name
    · subst hxn
      exact m12 x hnm
    · have : (s2.trace ++ [name]).count x = s2.trace.count x := by
        simp [List.count_append, List.count_singleton, hxn]
      rw [show ({ s2 with trace := s2.trace ++ [name] } : RunState).trace =
        s2.trace ++ [name] from rfl, this] at hx
      have hlt : s.trace.count x < s2.trace.count x := by
        have := g12 x
        simp only [RunState.markRun] at this
        omega
      exact c12 x hlt

theorem runDepsWith_stepOK (f : String → RunState → RunState × RunOutcome)
    (hf : ∀ d s, StepOK s (f d s).1) :
    ∀ ds s, StepOK s (Manager.runDepsWith f ds s).1 := by
  intro ds
  induction ds with
  | nil =>
    intro s
    exact stepOK_refl s
  | cons d rest ih =>
    intro s
    have h0 : StepOK s (f d s).1 := hf d s
    cases hfd : f d s with
    | mk s1 r =>
      rw [hfd] at h0
      cases r with
      | ok =>
        have h1 : Manager.runDepsWith f (d :: rest) s =
            Manager.runDepsWith f rest s1 := by
          simp [Manager.runDepsWith, hfd]
        rw [h1]
        exact stepOK_trans h0 (ih s1)
      | raised e =>
        have h1 : Manager.runDepsWith f (d :: rest) s = (s1, RunOutcome.raised e) := by
          simp [Manager.runDepsWith, hfd]
        rw [h1]
        exact h0
      | fuelOut =>
        have h1 : Manager.runDepsWith f (d :: rest) s = (s1, RunOutcome.fuelOut) := by
          simp [Manager.runDepsWith, hfd]
        rw [h1]
        exact h0

theorem tryBody_state (m : Manager) (opts : Opts) (name : String)
    (deps : List String) (s : RunState) :
    (Manager.tryBody m opts name deps s).1 = s ∨
    (Manager.tryBody m opts name deps s).1 =
      { s with trace := s.trace ++ [name] } := by
  cases htk : dictGet m.tasks name with
  | none => simp [Manager.tryBody, htk]
  | some t =>
    simp only [Manager.tryBody, htk]
    rcases eq_or_ne (deps.filter (fun d => decide (d ∈ s.failed))) [] with h1 | h1
    · rw [if_neg (fun h => h h1)]
      rcases eq_or_ne (deps.filter (fun d => decide (d ∉ s.alreadyRun))) [] with h2 | h2
      · rw [if_neg (fun h => h h2)]
        exact Or.inr rfl
      · rw [if_pos h2]
        exact Or.inl rfl
    · rw [if_pos h1]
      exact Or.inl rfl

theorem runFuel_stepOK (m : Manager) (opts : Opts) :
    ∀ fuel name s, StepOK s (Manager.runFuel m opts fuel name s).1 := by
  intro fuel
  induction fuel with
  | zero =>
    intro name s
    exact stepOK_refl s
  | succ fuel ih =>
    intro name s
    by_cases hmem : name ∈ s.alreadyRun
    · simp only [Manager.runFuel, hmem, if_true]
      exact stepOK_refl s
    · simp only [Manager.runFuel, hmem, if_false]
      have hdeps := runDepsWith_stepOK
        (fun d s2 => Manager.runFuel m opts fuel d s2) (fun d s2 => ih d s2)
        ((dictGet m.deps name).getD []) (s.markRun name)
      split
      · rename_i s2 hdd
        rw [hdd] at hdeps
        have hs2 : StepOK s s2 := stepOK_trans (stepOK_markRun s name) hdeps
        have htb := tryBody_state m opts name ((dictGet m.deps name).getD []) s2
        split
        · rename_i s3 u htr
          rw [htr] at htb
          cases htb with
          | inl h =>
            have h3 : s3 = s2 := h
            exact h3 ▸ hs2
          | inr h =>
            have h3 : s3 = { s2 with trace := s2.trace ++ [name] } := h
            exact h3 ▸ stepOK_execTrace hmem hdeps
        · rename_i s3 e htr
          rw [htr] at htb
          have hs3 : StepOK s s3 := by
            cases htb with
            | inl h =>
              have h3 : s3 = s2 := h
              exact h3 ▸ hs2
            | inr h =>
              have h3 : s3 = { s2 with trace := s2.trace ++ [name] } := h
              exact h3 ▸ stepOK_execTrace hmem hdeps
          split
          · exact stepOK_markFailed name e hs3
          · exact stepOK_markFailed name e hs3
      · rename_i s2 e hdd
        rw [hdd] at hdeps
        exact stepOK_trans (stepOK_markRun s name) hdeps
      · rename_i s2 hdd
        rw [hdd] at hdeps
        exact stepOK_trans (stepOK_markRun s name) hdeps
end Faterunner

namespace Faterunner

theorem tryBody_fields (m : Manager) (opts : Opts) (name : String)
    (deps : List String) (s : RunState) :
    (Manager.tryBody m opts name deps s).1.exceptions = s.exceptions ∧
    (Manager.tryBody m opts name deps s).1.failed = s.failed ∧
    (Manager.tryBody m opts name deps s).1.alreadyRun = s.alreadyRun := by
  rcases tryBody_state m opts name deps s with h | h <;> rw [h] <;>
    exact ⟨rfl, rfl, rfl⟩

theorem runDepsWith_mono (f : String → RunState → RunState × RunOutcome)
    (hmono : ∀ d s, ∀ x ∈ s.alreadyRun, x ∈ (f d s).1.alreadyRun) :
    ∀ ds s, ∀ x ∈ s.alreadyRun, x ∈ (Manager.runDepsWith f ds s).1.alreadyRun := by
  intro ds
  induction ds with
  | nil =>
    intro s x hx
    exact hx
  | cons d rest ih =>
    intro s x hx
    have h0 := hmono d s x hx
    cases hfd : f d s with
    | mk s1 r =>
      rw [hfd] at h0
      cases r with
      | ok =>
        have h1 : Manager.runDepsWith f (d :: rest) s =
            Manager.runDepsWith f rest s1 := by
          simp [Manager.runDepsWith, hfd]
        rw [h1]
        exact ih s1 x h0
      | raised e =>
        have h1 : Manager.runDepsWith f (d :: rest) s = (s1, RunOutcome.raised e) := by
          simp [Manager.runDepsWith, hfd]
        rw [h1]
        exact h0
      | fuelOut =>
        have h1 : Manager.runDepsWith f (d :: rest) s = (s1, RunOutcome.fuelOut) := by
          simp [Manager.runDepsWith, hfd]
        rw [h1]
        exact h0

theorem runDepsWith_traceNew (f : String → RunState → RunState × RunOutcome)
    (htrace : ∀ d s, ∃ w, (f d s).1.trace = s.trace ++ w ∧
      ∀ x ∈ w, x ∉ s.alreadyRun ∧ x ∈ (f d s).1.alreadyRun)
    (hmono : ∀ d s, ∀ x ∈ s.alreadyRun, x ∈ (f d s).1.alreadyRun) :
    ∀ ds s, ∃ w, (Manager.runDepsWith f ds s).1.trace = s.trace ++ w ∧
      ∀ x ∈ w, x ∉ s.alreadyRun ∧
        x ∈ (Manager.runDepsWith f ds s).1.alreadyRun := by
  intro ds
  induction ds with
  | nil =>
    intro s
    exact ⟨[], by simp [Manager.runDepsWith], by simp⟩
  | cons d rest ih =>
    intro s
    have h0 := htrace d s
    cases hfd : f d s with
    | mk s1 r =>
      rw [hfd] at h0
      obtain ⟨w1, hw1, hfresh1⟩ := h0
      cases r with
      | ok =>
        have h1 : Manager.runDepsWith f (d :: rest) s =
            Manager.runDepsWith f rest s1 := by
          simp [Manager.runDepsWith, hfd]
        obtain ⟨w2, hw2, hfresh2⟩ := ih s1
        refine ⟨w1 ++ w2, ?_, ?_⟩
        · rw [h1, hw2, hw1, List.append_assoc]
        · intro x hx
          rw [h1]
          rcases List.mem_append.mp hx with hx1 | hx2
          · refine ⟨(hfresh1 x hx1).1, ?_⟩
            exact runDepsWith_mono f hmono rest s1 x (hfresh1 x hx1).2
          · refine ⟨?_, (hfresh2 x hx2).2⟩
            intro hmem
            have := hmono d s x hmem
            rw [hfd] at this
            exact (hfresh2 x hx2).1 this
      | raised e =>
        have h1 : Manager.runDepsWith f (d :: rest) s = (s1, RunOutcome.raised e) := by
          simp [Manager.runDepsWith, hfd]
        rw [h1]
        exact ⟨w1, hw1, hfresh1⟩
      | fuelOut =>
        have h1 : Manager.runDepsWith f (d :: rest) s = (s1, RunOutcome.fuelOut) := by
          simp [Manager.runDepsWith, hfd]
        rw [h1]
        exact ⟨w1, hw1, hfresh1⟩

end Faterunner

namespace Faterunner

theorem runFuel_traceNew (m : Manager) (opts : Opts) :
    ∀ fuel name s,
      ∃ w, (Manager.runFuel m opts fuel name s).1.trace = s.trace ++ w ∧
        ∀ x ∈ w, x ∉ s.alreadyRun ∧
          x ∈ (Manager.runFuel m opts fuel name s).1.alreadyRun := by
  intro fuel
  induction fuel with
  | zero =>
    intro name s
    exact ⟨[], by simp [Manager.runFuel], by simp⟩
  | succ fuel ih =>
    intro name s
    by_cases hmem : name ∈ s.alreadyRun
    · refine ⟨[], ?_, by simp⟩
      simp [Manager.runFuel, hmem]
    · simp only [Manager.runFuel, hmem, if_false]
      have hdw := runDepsWith_traceNew (fun d s2 => Manager.runFuel m opts fuel d s2)
        (fun d s2 => ih d s2)
        (fun d s2 => (runFuel_stepOK m opts fuel d s2).1)
        ((dictGet m.deps name).getD []) (s.markRun name)
      have hnm2 : ∀ s2 r, Manager.runDepsWith
          (fun d s2 => Manager.runFuel m opts fuel d s2)
          ((dictGet m.deps name).getD []) (s.markRun name) = (s2, r) →
          name ∈ s2.alreadyRun := by
        intro s2 r hdd
        have := runDepsWith_mono (fun d s2 => Manager.runFuel m opts fuel d s2)
          (fun d s2 => (runFuel_stepOK m opts fuel d s2).1)
          ((dictGet m.deps name).getD []) (s.markRun name) name
          (mem_setAdd_self s.alreadyRun name)
        rw [hdd] at this
        exact this
      split
      · rename_i s2 hdd
        rw [hdd] at hdw
        obtain ⟨wd, hwd, hfd⟩ := hdw
        have hfresh : ∀ x ∈ wd, x ∉ s.alreadyRun ∧ x ∈ s2.alreadyRun := by
          intro x hx
          exact ⟨fun hin => (hfd x hx).1 (mem_setAdd_of_mem name hin), (hfd x hx).2⟩
        have htb := tryBody_state m opts name ((dictGet m.deps name).getD []) s2
        have hmain : ∀ s3 res, Manager.tryBody m opts name
            ((dictGet m.deps name).getD []) s2 = (s3, res) →
            (s3.trace = s.trace ++ wd ∧
              ∀ x ∈ wd, x ∉ s.alreadyRun ∧ x ∈ s3.alreadyRun) ∨
            (s3.trace = s.trace ++ (wd ++ [name]) ∧
              ∀ x ∈ wd ++ [name], x ∉ s.alreadyRun ∧ x ∈ s3.alreadyRun) := by
          intro s3 res htr
          rw [htr] at htb
          cases htb with
          | inl h =>
            have h3 : s3 = s2 := h
            rw [h3]
            exact Or.inl ⟨hwd, hfresh⟩
          | inr h =>
            have h3 : s3 = { s2 with trace := s2.trace ++ [name] } := h
            rw [h3]
            refine Or.inr ⟨?_, ?_⟩
            · show s2.trace ++ [name] = s.trace ++ (wd ++ [name])
              rw [hwd]
              show (s.markRun name).trace ++ wd ++ [name] = s.trace ++ (wd ++ [name])
              rw [List.append_assoc]
              rfl
            · intro x hx
              rcases List.mem_append.mp hx with hx1 | hx2
              · exact hfresh x hx1
              · have hxn : x = name := by simpa using hx2
                rw [hxn]
                exact ⟨hmem, hnm2 s2 RunOutcome.ok hdd⟩
        split
        · rename_i s3 u htr
          rcases hmain s3 (Except.ok u) htr with ⟨h1, h2⟩ | ⟨h1, h2⟩
          · exact ⟨wd, h1, h2⟩
          · exact ⟨wd ++ [name], h1, h2⟩
        · rename_i s3 e htr
          have hres := hmain s3 (Except.error e) htr
          split
          · rcases hres with ⟨h1, h2⟩ | ⟨h1, h2⟩
            · exact ⟨wd, h1, h2⟩
            · exact ⟨wd ++ [name], h1, h2⟩
          · rcases hres with ⟨h1, h2⟩ | ⟨h1, h2⟩
            · exact ⟨wd, h1, h2⟩
            · exact ⟨wd ++ [name], h1, h2⟩
      · rename_i s2 e hdd
        rw [hdd] at hdw
        obtain ⟨wd, hwd, hfd⟩ := hdw
        refine ⟨wd, hwd, ?_⟩
        intro x hx
        exact ⟨fun hin => (hfd x hx).1 (mem_setAdd_of_mem name hin), (hfd x hx).2⟩
      · rename_i s2 hdd
        rw [hdd] at hdw
        obtain ⟨wd, hwd, hfd⟩ := hdw
        refine ⟨wd, hwd, ?_⟩
        intro x hx
        exact ⟨fun hin => (hfd x hx).1 (mem_setAdd_of_mem name hin), (hfd x hx).2⟩

end Faterunner

namespace Faterunner

theorem runDepsWith_keepGoing (f : String → RunState → RunState × RunOutcome)
    (hf : ∀ d s, (f d s).2 = RunOutcome.ok ∨ (f d s).2 = RunOutcome.fuelOut) :
    ∀ ds s, (Manager.runDepsWith f ds s).2 = RunOutcome.ok ∨
      (Manager.runDepsWith f ds s).2 = RunOutcome.fuelOut := by
  intro ds
  induction ds with
  | nil =>
    intro s
    exact Or.inl rfl
  | cons d rest ih =>
    intro s
    have h0 := hf d s
    cases hfd : f d s with
    | mk s1 r =>
      rw [hfd] at h0
      cases r with
      | ok =>
        have h1 : Manager.runDepsWith f (d :: rest) s =
            Manager.runDepsWith f rest s1 := by
          simp [Manager.runDepsWith, hfd]
        rw [h1]
        exact ih s1
      | raised e =>
        rcases h0 with h0 | h0 <;> exact absurd h0 (by simp)
      | fuelOut =>
        have h1 : Manager.runDepsWith f (d :: rest) s = (s1, RunOutcome.fuelOut) := by
          simp [Manager.runDepsWith, hfd]
        rw [h1]
        exact Or.inr rfl

/-- Under `keep_going` every exception of the walk is swallowed: a walk
with keep-going effective never lets an exception propagate (only the fuel
artifact of the embedding can end it abnormally). -/
theorem runFuel_keepGoing (m : Manager) (opts : Opts)
    (hkg : opts.keep_going = some true) :
    ∀ fuel name s, (Manager.runFuel m opts fuel name s).2 = RunOutcome.ok ∨
      (Manager.runFuel m opts fuel name s).2 = RunOutcome.fuelOut := by
  intro fuel
  induction fuel with
  | zero =>
    intro name s
    exact Or.inr rfl
  | succ fuel ih =>
    intro name s
    by_cases hmem : name ∈ s.alreadyRun
    · simp [Manager.runFuel, hmem]
    · simp only [Manager.runFuel, hmem, if_false]
      have hdw := runDepsWith_keepGoing
        (fun d s2 => Manager.runFuel m opts fuel d s2) (fun d s2 => ih d s2)
        ((dictGet m.deps name).getD []) (s.markRun name)
      split
      · rename_i s2 hdd
        split
        · exact Or.inl rfl
        · rw [if_pos hkg]
          exact Or.inl rfl
      · rename_i s2 e hdd
        rw [hdd] at hdw
        rcases hdw with h | h <;> exact absurd h (by simp)
      · rename_i s2 hdd
        exact Or.inr rfl

theorem runDepsWith_completes (f : String → RunState → RunState × RunOutcome)
    (U : Finset String) (fuel : Nat)
    (hf : ∀ d s, d ∈ U → (U.filter (fun x => x ∉ s.alreadyRun)).card < fuel →
      (f d s).2 ≠ RunOutcome.fuelOut)
    (hmono : ∀ d s, ∀ x ∈ s.alreadyRun, x ∈ (f d s).1.alreadyRun) :
    ∀ ds s, (∀ d ∈ ds, d ∈ U) →
      (U.filter (fun x => x ∉ s.alreadyRun)).card < fuel →
      (Manager.runDepsWith f ds s).2 ≠ RunOutcome.fuelOut := by
  intro ds
  induction ds with
  | nil =>
    intro s _ _
    simp [Manager.runDepsWith]
  | cons d rest ih =>
    intro s hds hcard
    cases hfd : f d s with
    | mk s1 r =>
      cases r with
      | ok =>
        have h1 : Manager.runDepsWith f (d :: rest) s =
            Manager.runDepsWith f rest s1 := by
          simp [Manager.runDepsWith, hfd]
        rw [h1]
        apply ih s1 (fun d2 hd2 => hds d2 (List.mem_cons_of_mem d hd2))
        have hsub : U.filter (fun x => x ∉ s1.alreadyRun) ⊆
            U.filter (fun x => x ∉ s.alreadyRun) := by
          intro x hx
          simp only [Finset.mem_filter] at hx ⊢
          refine ⟨hx.1, fun hmem => hx.2 ?_⟩
          have := hmono d s x hmem
          rw [hfd] at this
          exact this
        exact lt_of_le_of_lt (Finset.card_le_card hsub) hcard
      | raised e =>
        have h1 : Manager.runDepsWith f (d :: rest) s = (s1, RunOutcome.raised e) := by
          simp [Manager.runDepsWith, hfd]
        rw [h1]
        simp
      | fuelOut =>
        exfalso
        have := hf d s (hds d (List.mem_cons_self d rest)) hcard
        rw [hfd] at this
        exact this rfl

theorem runFuel_completes (m : Manager) (opts : Opts) (U : Finset String)
    (hU : ∀ k ds, dictGet m.deps k = some ds → ∀ d ∈ ds, d ∈ U) :
    ∀ fuel name s, name ∈ U →
      (U.filter (fun x => x ∉ s.alreadyRun)).card < fuel →
      (Manager.runFuel m opts fuel name s).2 ≠ RunOutcome.fuelOut := by
  intro fuel
  induction fuel with
  | zero =>
    intro name s _ hcard
    exact absurd hcard (Nat.not_lt_zero _)
  | succ fuel ih =>
    intro name s hnameU hcard
    by_cases hmem : name ∈ s.alreadyRun
    · simp [Manager.runFuel, hmem]
    · simp only [Manager.runFuel, hmem, if_false]
      have hfmem : name ∈ U.filter (fun x => x ∉ s.alreadyRun) :=
        Finset.mem_filter.mpr ⟨hnameU, hmem⟩
      have hsub : U.filter (fun x => x ∉ (s.markRun name).alreadyRun) ⊆
          U.filter (fun x => x ∉ s.alreadyRun) := by
        intro x hx
        simp only [Finset.mem_filter] at hx ⊢
        exact ⟨hx.1, fun hmem2 => hx.2 (mem_setAdd_of_mem name hmem2)⟩
      have hnot : name ∉ U.filter (fun x => x ∉ (s.markRun name).alreadyRun) := by
        simp only [Finset.mem_filter, not_and]
        intro _
        simp only [not_not]
        exact mem_setAdd_self s.alreadyRun name
      have hlt : (U.filter (fun x => x ∉ (s.markRun name).alreadyRun)).card <
          (U.filter (fun x => x ∉ s.alreadyRun)).card :=
        Finset.card_lt_card ⟨hsub, fun hcontra => hnot (hcontra hfmem)⟩
      have hcard1 : (U.filter (fun x => x ∉ (s.markRun name).alreadyRun)).card < fuel := by
        omega
      split
      · rename_i s2 hdd
        split
        · simp
        · split <;> simp
      · rename_i s2 e hdd
        simp
      · rename_i s2 hdd
        exfalso
        have hdepsU : ∀ d ∈ (dictGet m.deps name).getD [], d ∈ U := by
          cases hgd : dictGet m.deps name with
          | none => simp
          | some ds =>
            intro d hd
            exact hU name ds hgd d (by simpa using hd)
        have hcmp := runDepsWith_completes
          (fun d s2 => Manager.runFuel m opts fuel d s2) U fuel
          (fun d s2 hdU hc => ih d s2 hdU hc)
          (fun d s2 => (runFuel_stepOK m opts fuel d s2).1)
          ((dictGet m.deps name).getD []) (s.markRun name) hdepsU hcard1
        rw [hdd] at hcmp
        exact hcmp rfl

/-- Enough fuel for a top-level walk: one more than the number of distinct
names among the start name and every name mentioned in a dependency list. -/
def fuelNeed (m : Manager) (start : String) : Nat :=
  (start :: (m.deps.map Prod.snd).flatten).toFinset.card + 1

theorem runFuel_enough (m : Manager) (opts : Opts) (fuel : Nat) (name : String)
    (h : fuelNeed m name ≤ fuel) :
    (Manager.runFuel m opts fuel name RunState.init).2 ≠ RunOutcome.fuelOut := by
  apply runFuel_completes m opts ((name :: (m.deps.map Prod.snd).flatten).toFinset)
  · intro k ds hds d hd
    have hmem : ds ∈ m.deps.map Prod.snd := dictGet_mem_map_snd m.deps k ds hds
    have hfl : d ∈ (m.deps.map Prod.snd).flatten := List.mem_flatten.mpr ⟨ds, hmem, hd⟩
    simp only [List.mem_toFinset, List.mem_cons]
    exact Or.inr hfl
  · simp [List.mem_toFinset]
  · have hall : ((name :: (m.deps.map Prod.snd).flatten).toFinset.filter
        (fun x => x ∉ RunState.init.alreadyRun)) =
        (name :: (m.deps.map Prod.snd).flatten).toFinset := by
      apply Finset.filter_true_of_mem
      intro x _
      simp [RunState.init]
    rw [hall]
    unfold fuelNeed at h
    omega

end Faterunner

namespace Faterunner

theorem getLast?_append_right {l1 l2 : List String} {n : String}
    (h : l2.getLast? = some n) : (l1 ++ l2).getLast? = some n := by
  have hne : l2 ≠ [] := by
    intro hnil
    rw [hnil] at h
    exact absurd h (by simp)
  rw [List.getLast?_append_of_ne_nil l1 hne]
  exact h

theorem runDepsWith_failFast (f : String → RunState → RunState × RunOutcome)
    (hclean : ∀ d s, ((f d s).2 = RunOutcome.ok ∨ (f d s).2 = RunOutcome.fuelOut) →
      (f d s).1.exceptions = s.exceptions ∧ (f d s).1.failed = s.failed)
    (hraise : ∀ d s e, (f d s).2 = RunOutcome.raised e →
      ∃ n w, n ∉ s.alreadyRun ∧
        (f d s).1.exceptions = s.exceptions ++ [e] ∧
        (f d s).1.failed = setAdd s.failed n ∧
        (f d s).1.trace = s.trace ++ w ∧
        (w.getLast? = some n ∨ n ∉ w))
    (htrace : ∀ d s, ∃ w, (f d s).1.trace = s.trace ++ w ∧
      ∀ x ∈ w, x ∉ s.alreadyRun ∧ x ∈ (f d s).1.alreadyRun)
    (hmono : ∀ d s, ∀ x ∈ s.alreadyRun, x ∈ (f d s).1.alreadyRun) :
    ∀ ds s,
      (((Manager.runDepsWith f ds s).2 = RunOutcome.ok ∨
        (Manager.runDepsWith f ds s).2 = RunOutcome.fuelOut) →
        (Manager.runDepsWith f ds s).1.exceptions = s.exceptions ∧
        (Manager.runDepsWith f ds s).1.failed = s.failed) ∧
      (∀ e, (Manager.runDepsWith f ds s).2 = RunOutcome.raised e →
        ∃ n w, n ∉ s.alreadyRun ∧
          (Manager.runDepsWith f ds s).1.exceptions = s.exceptions ++ [e] ∧
          (Manager.runDepsWith f ds s).1.failed = setAdd s.failed n ∧
          (Manager.runDepsWith f ds s).1.trace = s.trace ++ w ∧
          (w.getLast? = some n ∨ n ∉ w)) := by
  intro ds
  induction ds with
  | nil =>
    intro s
    constructor
    · intro _
      exact ⟨rfl, rfl⟩
    · intro e he
      simp [Manager.runDepsWith] at he
  | cons d rest ih =>
    intro s
    cases hfd : f d s with
    | mk s1 r =>
      cases r with
      | ok =>
        have h1 : Manager.runDepsWith f (d :: rest) s =
            Manager.runDepsWith f rest s1 := by
          simp [Manager.runDepsWith, hfd]
        have hc : s1.exceptions = s.exceptions ∧ s1.failed = s.failed := by
          have := hclean d s (Or.inl (by rw [hfd]))
          rw [hfd] at this
          exact this
        obtain ⟨w1, hw1, hfr1⟩ : ∃ w, s1.trace = s.trace ++ w ∧
            ∀ x ∈ w, x ∉ s.alreadyRun ∧ x ∈ s1.alreadyRun := by
          have := htrace d s
          rw [hfd] at this
          exact this
        have hm1 : ∀ x ∈ s.alreadyRun, x ∈ s1.alreadyRun := by
          intro x hx
          have := hmono d s x hx
          rw [hfd] at this
          exact this
        rw [h1]
        constructor
        · intro hok
          have hrest := (ih s1).1 hok
          exact ⟨hrest.1.trans hc.1, hrest.2.trans hc.2⟩
        · intro e he
          obtain ⟨n, w2, hn, hexc, hfail, htr, hlast⟩ := (ih s1).2 e he
          refine ⟨n, w1 ++ w2, ?_, ?_, ?_, ?_, ?_⟩
          · intro hin
            exact hn (hm1 n hin)
          · rw [hexc, hc.1]
          · rw [hfail, hc.2]
          · rw [htr, hw1, List.append_assoc]
          · cases hlast with
            | inl h => exact Or.inl (getLast?_append_right h)
            | inr h =>
              refine Or.inr ?_
              intro hmem
              rcases List.mem_append.mp hmem with hmem1 | hmem2
              · exact hn ((hfr1 n hmem1).2)
              · exact h hmem2
      | raised e0 =>
        have h1 : Manager.runDepsWith f (d :: rest) s = (s1, RunOutcome.raised e0) := by
          simp [Manager.runDepsWith, hfd]
        rw [h1]
        constructor
        · intro hok
          rcases hok with hok | hok <;> exact absurd hok (by simp)
        · intro e he
          have he0 : e0 = e := by simpa using he
          obtain ⟨n, w, hn, hexc, hfail, htr, hlast⟩ :=
            hraise d s e0 (by rw [hfd])
          rw [hfd] at hexc hfail htr
          exact ⟨n, w, hn, he0 ▸ hexc, hfail, htr, hlast⟩
      | fuelOut =>
        have h1 : Manager.runDepsWith f (d :: rest) s = (s1, RunOutcome.fuelOut) := by
          simp [Manager.runDepsWith, hfd]
        rw [h1]
        constructor
        · intro _
          have := hclean d s (Or.inr (by rw [hfd]))
          rw [hfd] at this
          exact this
        · intro e he
          exact absurd he (by simp)

end Faterunner

namespace Faterunner

/-- Fail-fast invariant of the walk: when the effective opts do not have
`keep_going` true, a normally returning walk collects no exception and
marks nothing failed; a walk that lets an exception propagate collects
exactly that one exception, marks exactly one more name failed, and runs
no task after the failing name (the failing name is the last task executed
or was never executed at all). -/
theorem runFuel_failFast (m : Manager) (opts : Opts)
    (hkg : opts.keep_going ≠ some true) :
    ∀ fuel name s,
      (((Manager.runFuel m opts fuel name s).2 = RunOutcome.ok ∨
        (Manager.runFuel m opts fuel name s).2 = RunOutcome.fuelOut) →
        (Manager.runFuel m opts fuel name s).1.exceptions = s.exceptions ∧
        (Manager.runFuel m opts fuel name s).1.failed = s.failed) ∧
      (∀ e, (Manager.runFuel m opts fuel name s).2 = RunOutcome.raised e →
        ∃ n w, n ∉ s.alreadyRun ∧
          (Manager.runFuel m opts fuel name s).1.exceptions = s.exceptions ++ [e] ∧
          (Manager.runFuel m opts fuel name s).1.failed = setAdd s.failed n ∧
          (Manager.runFuel m opts fuel name s).1.trace = s.trace ++ w ∧
          (w.getLast? = some n ∨ n ∉ w)) := by
  intro fuel
  induction fuel with
  | zero =>
    intro name s
    constructor
    · intro _
      exact ⟨rfl, rfl⟩
    · intro e he
      simp [Manager.runFuel] at he
  | succ fuel ih =>
    intro name s
    by_cases hmem : name ∈ s.alreadyRun
    · have hres : Manager.runFuel m opts (fuel + 1) name s = (s, RunOutcome.ok) := by
        simp [Manager.runFuel, hmem]
      rw [hres]
      constructor
      · intro _
        exact ⟨rfl, rfl⟩
      · intro e he
        exact absurd he (by simp)
    · simp only [Manager.runFuel, hmem, if_false]
      have helper := runDepsWith_failFast
        (fun d s2 => Manager.runFuel m opts fuel d s2)
        (fun d s2 h => (ih d s2).1 h)
        (fun d s2 e h => (ih d s2).2 e h)
        (fun d s2 => runFuel_traceNew m opts fuel d s2)
        (fun d s2 => (runFuel_stepOK m opts fuel d s2).1)
        ((dictGet m.deps name).getD []) (s.markRun name)
      split
      · rename_i s2 hdd
        have hc2 : s2.exceptions = s.exceptions ∧ s2.failed = s.failed := by
          have := helper.1 (Or.inl (by rw [hdd]))
          rw [hdd] at this
          exact this
        obtain ⟨wd, hwd, hfrd⟩ : ∃ w, s2.trace = s.trace ++ w ∧
            ∀ x ∈ w, x ∉ (s.markRun name).alreadyRun ∧ x ∈ s2.alreadyRun := by
          have hdw := runDepsWith_traceNew
            (fun d s2 => Manager.runFuel m opts fuel d s2)
            (fun d s2 => runFuel_traceNew m opts fuel d s2)
            (fun d s2 => (runFuel_stepOK m opts fuel d s2).1)
            ((dictGet m.deps name).getD []) (s.markRun name)
          rw [hdd] at hdw
          exact hdw
        have htbf := tryBody_fields m opts name ((dictGet m.deps name).getD []) s2
        have htbs := tryBody_state m opts name ((dictGet m.deps name).getD []) s2
        split
        · rename_i s3 u htr
          rw [htr] at htbf
          constructor
          · intro _
            have h3a : s3.exceptions = s2.exceptions := htbf.1
            have h3b : s3.failed = s2.failed := htbf.2.1
            exact ⟨h3a.trans hc2.1, h3b.trans hc2.2⟩
          · intro e he
            exact absurd he (by simp)
        · rename_i s3 e0 htr
          rw [htr] at htbf htbs
          have h3a : s3.exceptions = s.exceptions := htbf.1.trans hc2.1
          have h3b : s3.failed = s.failed := htbf.2.1.trans hc2.2
          split
          · rename_i hkgpos
            exact absurd hkgpos hkg
          · constructor
            · intro hok
              rcases hok with hok | hok <;> exact absurd hok (by simp)
            · intro e he
              have he0 : e0 = e := by simpa using he
              have hext : s3.exceptions ++ [e0] = s.exceptions ++ [e] := by
                rw [h3a, he0]
              have hflt : setAdd s3.failed name = setAdd s.failed name := by
                rw [h3b]
              cases htbs with
              | inl h3 =>
                have h3c : s3 = s2 := h3
                refine ⟨name, wd, hmem, hext, hflt, ?_, ?_⟩
                · show s3.trace = s.trace ++ wd
                  rw [h3c]
                  exact hwd
                · refine Or.inr ?_
                  intro hnw
                  exact (hfrd name hnw).1 (mem_setAdd_self s.alreadyRun name)
              | inr h3 =>
                have h3c : s3 = { s2 with trace := s2.trace ++ [name] } := h3
                refine ⟨name, wd ++ [name], hmem, hext, hflt, ?_, ?_⟩
                · show s3.trace = s.trace ++ (wd ++ [name])
                  rw [h3c]
                  show s2.trace ++ [name] = s.trace ++ (wd ++ [name])
                  rw [hwd, List.append_assoc]
                · exact Or.inl (getLast?_append_right rfl)
      · rename_i s2 e0 hdd
        constructor
        · intro hok
          rcases hok with hok | hok <;> exact absurd hok (by simp)
        · intro e he
          have he0 : e0 = e := by simpa using he
          have hr := helper.2 e0 (by rw [hdd])
          rw [hdd] at hr
          obtain ⟨n, w, hn, hexc, hfail, htr, hlast⟩ := hr
          refine ⟨n, w, ?_, ?_, ?_, ?_, hlast⟩
          · intro hin
            exact hn (mem_setAdd_of_mem name hin)
          · show s2.exceptions = s.exceptions ++ [e]
            rw [← he0]
            exact hexc
          · exact hfail
          · exact htr
      · rename_i s2 hdd
        constructor
        · intro _
          have := helper.1 (Or.inr (by rw [hdd]))
          rw [hdd] at this
          exact this
        · intro e he
          exact absurd he (by simp)

end Faterunner

namespace Faterunner

/-- A task with no actions: always runs successfully. -/
def emptyTask : Task := { actions := [], opts := Opts.unset }

/-- A task with one always-failing action. -/
def failTask : Task := { actions := [boomAction], opts := Opts.unset }

/-- Diamond dependency graph: A depends on B and C, both depend on D. -/
def diamondM : Manager :=
  { tasks := [("A", emptyTask), ("B", emptyTask), ("C", emptyTask), ("D", emptyTask)]
    deps := [("A", ["B", "C"]), ("B", ["D"]), ("C", ["D"])]
    opts := Opts.unset }

/-- A manager whose own defaults request keep-going, with a target whose
first dependency fails and second succeeds. -/
def kgM : Manager :=
  { tasks := [("a", emptyTask), ("b", failTask), ("c", emptyTask)]
    deps := [("a", ["b", "c"])]
    opts := { silent := none, ignore_err := none, keep_going := some true, dry := none } }

/-- The same graph with every manager default unset: fail-fast. -/
def ffM : Manager :=
  { tasks := [("a", emptyTask), ("b", failTask), ("c", emptyTask)]
    deps := [("a", ["b", "c"])]
    opts := Opts.unset }

/-- Claim C7: in any top-level walk each task name is executed at most once,
even when reachable through multiple dependency paths; in the diamond graph
(A depends on B and C, both depend on D) running A executes D exactly
once. -/
theorem C7_dedup (m : Manager) (opts : Opts) (fuel : Nat) (name x : String) :
    (Manager.runFuel m opts fuel name RunState.init).1.trace.count x ≤ 1 ∧
    (Manager.runFuel diamondM Opts.unset 10 "A" RunState.init).1.trace.count "D" = 1 := by
  constructor
  · have h := (runFuel_stepOK m opts fuel name RunState.init).2.2.2.1 x
    simpa [RunState.init] using h
  · decide

/-- Claim C4, counterexample: in a concrete keep-going run whose target has
a failed dependency, the error the engine records for the dependent task is
a `RuntimeError` (raised by `Manager._run` itself), not an instance of
`exceptions.DependencyError`, which the engine never constructs. -/
theorem C4_cex :
    kgM.run 10 "a" none = Except.error (RunFailure.aggregate
      [PyErr.userError "boom", PyErr.depsFailed "a" ["b"]]) ∧
    PyErr.isDependencyErrorClass (PyErr.depsFailed "a" ["b"]) = false ∧
    PyErr.pyClassName (PyErr.depsFailed "a" ["b"]) = "RuntimeError" :=
  ⟨rfl, rfl, rfl⟩

/-- Claim C4, amended: for a registered task name, when at least one listed
dependency is in the failed set, the `try` block of `Manager._run` raises a
`RuntimeError` (not a `DependencyError`) naming the failed dependencies,
and does not run the task (the state, in particular the execution trace, is
unchanged). -/
theorem C4_amended (m : Manager) (opts : Opts) (name : String)
    (deps : List String) (s : RunState)
    (htask : (dictGet m.tasks name).isSome = true)
    (hfail : deps.filter (fun d => decide (d ∈ s.failed)) ≠ []) :
    Manager.tryBody m opts name deps s =
      (s, Except.error (PyErr.depsFailed name
        (deps.filter (fun d => decide (d ∈ s.failed))))) ∧
    PyErr.pyClassName (PyErr.depsFailed name
      (deps.filter (fun d => decide (d ∈ s.failed)))) = "RuntimeError" := by
  constructor
  · cases htk : dictGet m.tasks name with
    | none =>
      rw [htk] at htask
      simp at htask
    | some t =>
      simp only [Manager.tryBody, htk]
      rw [if_pos hfail]
  · rfl

/-- A state in which dependency b has already run and failed. -/
def stateB : RunState :=
  { alreadyRun := ["b"], failed := ["b"],
    exceptions := [PyErr.userError "boom"], trace := ["b"] }

/-- Witness for the amended claim C4 at a concrete state where the
dependency b of a has failed. -/
theorem C4_amended_witness :
    Manager.tryBody ffM Opts.unset "a" ["b"] stateB =
      (stateB, Except.error (PyErr.depsFailed "a"
        (["b"].filter (fun d => decide (d ∈ stateB.failed))))) ∧
    PyErr.pyClassName (PyErr.depsFailed "a"
      (["b"].filter (fun d => decide (d ∈ stateB.failed)))) = "RuntimeError" :=
  C4_amended ffM Opts.unset "a" ["b"] stateB (by decide) (by decide)

/-- Claim C5, counterexample: the aggregate exception a keep-going run
raises at the end is `RuntimeError(*exceptions)`, not a `FateError`: the
engine never constructs the classes of `exceptions.py`. -/
theorem C5_cex :
    kgM.run 10 "a" none = Except.error (RunFailure.aggregate
      [PyErr.userError "boom", PyErr.depsFailed "a" ["b"]]) ∧
    RunFailure.isFateErrorClass (RunFailure.aggregate
      [PyErr.userError "boom", PyErr.depsFailed "a" ["b"]]) = false ∧
    RunFailure.pyClassOf (RunFailure.aggregate
      [PyErr.userError "boom", PyErr.depsFailed "a" ["b"]]) = "RuntimeError" :=
  ⟨rfl, rfl, rfl⟩

/-- Claim C5, amended: when the effective opts have `keep_going` true and
the fuel of the embedding suffices, the walk always returns normally, and
the top-level run raises a single aggregate `RuntimeError` (not a
`FateError`) wrapping all collected errors exactly when the collected
error set is non-empty, returning successfully otherwise. -/
theorem C5_aggregate (m : Manager) (name : String) (callerOpts : Option Opts)
    (fuel : Nat)
    (hkg : (m.opts.mergeOr callerOpts).keep_going = some true)
    (hfuel : fuelNeed m name ≤ fuel) :
    (Manager.runFuel m (m.opts.mergeOr callerOpts) fuel name RunState.init).2 =
      RunOutcome.ok ∧
    m.run fuel name callerOpts =
      (if (Manager.runFuel m (m.opts.mergeOr callerOpts) fuel name
            RunState.init).1.exceptions = []
       then Except.ok ()
       else Except.error (RunFailure.aggregate
        (Manager.runFuel m (m.opts.mergeOr callerOpts) fuel name
          RunState.init).1.exceptions)) := by
  have hok : (Manager.runFuel m (m.opts.mergeOr callerOpts) fuel name
      RunState.init).2 = RunOutcome.ok := by
    rcases runFuel_keepGoing m (m.opts.mergeOr callerOpts) hkg fuel name
      RunState.init with h | h
    · exact h
    · exact absurd h (runFuel_enough m (m.opts.mergeOr callerOpts) fuel name hfuel)
  refine ⟨hok, ?_⟩
  unfold Manager.run
  cases hres : Manager.runFuel m (m.opts.mergeOr callerOpts) fuel name
      RunState.init with
  | mk s r =>
    have hr : r = RunOutcome.ok := by
      rw [hres] at hok
      exact hok
    rw [hr]

/-- Witness for the amended claim C5 at a concrete keep-going run with one
failing dependency. -/
theorem C5_aggregate_witness :
    (Manager.runFuel kgM (kgM.opts.mergeOr none) 10 "a" RunState.init).2 =
      RunOutcome.ok ∧
    kgM.run 10 "a" none =
      (if (Manager.runFuel kgM (kgM.opts.mergeOr none) 10 "a"
            RunState.init).1.exceptions = []
       then Except.ok ()
       else Except.error (RunFailure.aggregate
        (Manager.runFuel kgM (kgM.opts.mergeOr none) 10 "a"
          RunState.init).1.exceptions)) :=
  C5_aggregate kgM "a" none 10 (by decide) (by decide)

/-- Claim C6: under fail-fast effective opts (keep_going unset or false)
and sufficient fuel, a raised first failure aborts the whole run, which
re-raises exactly that exception; exactly one exception was collected and
exactly one name marked failed, and no task was attempted after the failing
name (it is the last executed name, or was never executed); when nothing is
raised, the run returns successfully (nothing was collected at all). -/
theorem C6_failFast_run (m : Manager) (name : String) (callerOpts : Option Opts)
    (fuel : Nat)
    (hkg : (m.opts.mergeOr callerOpts).keep_going ≠ some true)
    (hfuel : fuelNeed m name ≤ fuel) :
    (∀ e, (Manager.runFuel m (m.opts.mergeOr callerOpts) fuel name
        RunState.init).2 = RunOutcome.raised e →
      m.run fuel name callerOpts = Except.error (RunFailure.raised e) ∧
      (Manager.runFuel m (m.opts.mergeOr callerOpts) fuel name
        RunState.init).1.exceptions = [e] ∧
      ∃ n, (Manager.runFuel m (m.opts.mergeOr callerOpts) fuel name
          RunState.init).1.failed = [n] ∧
        ((Manager.runFuel m (m.opts.mergeOr callerOpts) fuel name
            RunState.init).1.trace.getLast? = some n ∨
          n ∉ (Manager.runFuel m (m.opts.mergeOr callerOpts) fuel name
            RunState.init).1.trace)) ∧
    ((Manager.runFuel m (m.opts.mergeOr callerOpts) fuel name
        RunState.init).2 = RunOutcome.ok →
      m.run fuel name callerOpts = Except.ok ()) ∧
    (Manager.runFuel m (m.opts.mergeOr callerOpts) fuel name
      RunState.init).2 ≠ RunOutcome.fuelOut := by
  have hff := runFuel_failFast m (m.opts.mergeOr callerOpts) hkg fuel name
    RunState.init
  refine ⟨?_, ?_, runFuel_enough m (m.opts.mergeOr callerOpts) fuel name hfuel⟩
  · intro e he
    obtain ⟨n, w, hn, hexc, hfail, htr, hlast⟩ := hff.2 e he
    refine ⟨?_, ?_, n, ?_, ?_⟩
    · unfold Manager.run
      cases hres : Manager.runFuel m (m.opts.mergeOr callerOpts) fuel name
          RunState.init with
      | mk s r =>
        have hr : r = RunOutcome.raised e := by
          rw [hres] at he
          exact he
        rw [hr]
    · rw [hexc]
      rfl
    · rw [hfail]
      rfl
    · rw [htr]
      cases hlast with
      | inl h =>
        exact Or.inl (getLast?_append_right h)
      | inr h =>
        refine Or.inr ?_
        intro hmem
        exact h (by simpa [RunState.init] using hmem)
  · intro hok
    have hclean := hff.1 (Or.inl hok)
    unfold Manager.run
    cases hres : Manager.runFuel m (m.opts.mergeOr callerOpts) fuel name
        RunState.init with
    | mk s r =>
      have hr : r = RunOutcome.ok := by
        rw [hres] at hok
        exact hok
      rw [hr]
      have hse : s.exceptions = [] := by
        rw [hres] at hclean
        exact hclean.1
      simp [hse]

/-- Witness for claim C6: a fail-fast run whose first dependency fails is
aborted with exactly that exception, and a fail-fast run of the wholly
succeeding diamond graph returns successfully. -/
theorem C6_failFast_run_witness :
    ffM.run 10 "a" none = Except.error (RunFailure.raised (PyErr.userError "boom")) ∧
    diamondM.run 10 "A" none = Except.ok () :=
  ⟨((C6_failFast_run ffM "a" none 10 (by decide) (by decide)).1
      (PyErr.userError "boom") rfl).1,
    (C6_failFast_run diamondM "A" none 10 (by decide) (by decide)).2.1 rfl⟩

end Faterunner
